import Mathlib

/-!
Verification of the AI-vs-AI Akinator game orchestration (`ai_akinator.py`).

The core of the program is the class `AIAkinator` with:
  * `_make_api_call(messages, temperature)` — calls the inference service; when
    `self.stream` is set it drains the chunk stream (skipping falsy chunk
    contents, i.e. `None` and `""`) into `full_response`, otherwise it returns
    `response.choices[0].message.content`;
  * `get_answerer_response(concept, question)` — builds the answerer prompt
    (a system message fixing the concept and the closed response vocabulary,
    plus one user message `"Question: {question}"`) and calls the service;
  * `get_guesser_question(conversation_history)` — builds the guesser prompt
    (a fixed system strategy message plus a user message rendering the history
    as `Q{i}: ...\nA{i}: ...` pairs, or a first-question marker) and calls the
    service;
  * `play_game(concept)` — resets `conversation_history = []` and
    `question_count = 0`, then loops `while question_count < max_questions`:
    increment the counter, obtain a question, obtain an answer, append the
    exchange, and return a success outcome as soon as the answer equals the
    exact string "DONE"; after the loop it returns a failure outcome.

The external inference service is modelled as an oracle mapping the index of
the call (0-based, in call order) to either a failure or a raw response
carrying both the non-streaming full text and the streaming chunk sequence.
The loop is embedded with a fuel parameter `remaining`; `play_game` starts it
with `remaining = max_questions` and `question_count = 0`, so throughout the
run `question_count + remaining = max_questions` and the guard
`question_count < max_questions` of the Python loop is exactly `remaining > 0`.

Two ghost fields instrument the run without influencing control flow:
`call_log` records the message sequence sent on each inference call, and
`trace` records the `(question_count, conversation_history)` state at each
evaluation of the loop guard (the observation points between iterations).
-/

namespace Akinator

/-- One completed question/answer exchange (`{"question": ..., "answer": ...}`). -/
structure Exchange where
  question : String
  answer : String
deriving DecidableEq, Repr

/-- One chat message `{"role": ..., "content": ...}` sent to the inference service. -/
structure Message where
  role : String
  content : String
deriving DecidableEq, Repr

/-- The result dictionary returned by `play_game`. -/
structure Outcome where
  success : Bool
  concept : String
  questions_asked : Nat
  conversation : List Exchange
deriving DecidableEq, Repr

/-- Failure of an inference call (network/service error), the only failure the
program can propagate. -/
inductive InfError where
  | inferenceError
deriving DecidableEq, Repr

/-- A raw response of the inference service: the full text of the single
message (used when not streaming) and the ordered chunk contents (used when
streaming; `none` models a chunk whose `delta.content` is `None`). -/
structure RawResponse where
  content : String
  chunks : List (Option String)
deriving DecidableEq, Repr

/-- The external inference service, scripted by call index (0-based, in the
order the calls are made). -/
def Oracle := Nat → Except InfError RawResponse

/-- The streaming branch of `_make_api_call`: start from `full_response = ""`
and append every chunk content that is truthy (not `None` and not `""`). -/
def stream_drain (chunks : List (Option String)) : String :=
  chunks.foldl
    (fun full_response c =>
      match c with
      | some content => if content = "" then full_response else full_response ++ content
      | none => full_response)
    ""

/-- `_make_api_call`: drain the stream when `self.stream` is set, otherwise
return the message content of the (non-streaming) response. -/
def _make_api_call (stream : Bool) (r : RawResponse) : String :=
  if stream then stream_drain r.chunks else r.content

/-- The system message content of `get_answerer_response`, fixing the secret
concept and the closed response vocabulary. -/
def answerer_system_content (concept : String) : String :=
  "You are playing Akinator. You know the secret concept: \"" ++ concept ++
    "\".\n                \nYour job is to answer yes/no questions about this concept. Answer only with:\n- \"Yes\" if the question is true about the concept\n- \"No\" if the question is false about the concept\n- \"Sometimes\" or \"Partially\" if it\x27s not clearly yes or no\n- \"I don\x27t know\" only if you genuinely cannot determine the answer\n- \"DONE\" if the guesser has guessed the concept\n\nBe accurate and helpful in your responses. The other AI is trying to guess your concept."

/-- The message list built by `get_answerer_response` before its inference call. -/
def get_answerer_messages (concept question : String) : List Message :=
  [⟨"system", answerer_system_content concept⟩,
   ⟨"user", "Question: " ++ question⟩]

/-- The system message content of `get_guesser_question` (the guessing
strategy instructions). -/
def guesser_system_content : String :=
  "You are playing Akinator as the guesser. Your goal is to figure out what concept the other person is thinking of by asking strategic yes/no questions.\n\nGuidelines:\n- Ask clear, specific yes/no questions\n- Start broad and narrow down based on answers\n- Use the conversation history to inform your next question\n- When you\x27re confident about the answer, make a guess by saying \"Is it [your guess]?\"\n- Be strategic and efficient with your questions\n\nDon\x27t repeat questions you\x27ve already asked."

/-- One rendered line pair `Q{i+1}: {question}\nA{i+1}: {answer}` of the
history text (`i` is the 0-based position of `item` in the history). -/
def history_line (i : Nat) (item : Exchange) : String :=
  "Q" ++ toString (i + 1) ++ ": " ++ item.question ++
    "\nA" ++ toString (i + 1) ++ ": " ++ item.answer

/-- `history_text` of `get_guesser_question`: `""` when the history list is
falsy (empty), otherwise the newline-join of the rendered pairs. -/
def history_text (conversation_history : List Exchange) : String :=
  if conversation_history.isEmpty then ""
  else String.intercalate "\n"
    (conversation_history.enum.map (fun p => history_line p.1 p.2))

/-- The user message content of `get_guesser_question`; the first-question
marker is substituted when `history_text` is falsy (empty string). -/
def guesser_user_content (conversation_history : List Exchange) : String :=
  "Based on this conversation history, what is your next question?\n\n" ++
    (if history_text conversation_history = "" then "This is the first question."
     else history_text conversation_history) ++
    "\n\nAsk your next question:"

/-- The message list built by `get_guesser_question` before its inference call. -/
def get_guesser_messages (conversation_history : List Exchange) : List Message :=
  [⟨"system", guesser_system_content⟩,
   ⟨"user", guesser_user_content conversation_history⟩]

/-- The mutable state of an `AIAkinator` object (the API client handle is
subsumed by the oracle passed to the run). `max_questions` is set to 100 and
`question_count`/`conversation_history` to `0`/`[]` by `__init__`. -/
structure AIAkinator where
  stream : Bool
  max_questions : Nat
  question_count : Nat
  conversation_history : List Exchange
deriving DecidableEq, Repr

instance {ε α : Type} [DecidableEq ε] [DecidableEq α] : DecidableEq (Except ε α) := fun x y =>
  match x, y with
  | .error a, .error b => decidable_of_iff (a = b) (by simp)
  | .error _, .ok _ => isFalse (by simp)
  | .ok _, .error _ => isFalse (by simp)
  | .ok a, .ok b => decidable_of_iff (a = b) (by simp)

/-- The observable result of one `play_game` call: the returned outcome (or
the propagated inference failure), the final values of the object fields
`question_count` and `conversation_history`, and two ghost records — the
message sequences sent to the inference service, one entry per call in call
order (`call_log`), and the `(question_count, conversation_history)` state at
each evaluation of the loop guard (`trace`). -/
structure LoopResult where
  result : Except InfError Outcome
  question_count : Nat
  conversation_history : List Exchange
  call_log : List (List Message)
  trace : List (Nat × List Exchange)
deriving DecidableEq, Repr

/-- The `while question_count < max_questions` loop of `play_game`, embedded
with fuel: `remaining` is the number of loop iterations the guard still
allows, so the guard is `remaining > 0` (with `question_count + remaining`
invariant along the run, equal to `max_questions`). Each iteration increments
the counter, asks the guesser (building its messages from the history first),
asks the answerer (building its messages from the concept and the question),
appends the exchange and returns a success outcome when the answer equals
"DONE" exactly; an inference failure propagates at once. When the fuel is
exhausted the loop falls through to the failure outcome. -/
def play_from (stream : Bool) (oracle : Oracle) (concept : String) :
    Nat → Nat → List Exchange → List (List Message) → LoopResult
  | 0, question_count, conversation_history, call_log =>
      { result := .ok { success := false, concept := concept,
                        questions_asked := question_count,
                        conversation := conversation_history },
        question_count := question_count,
        conversation_history := conversation_history,
        call_log := call_log,
        trace := [(question_count, conversation_history)] }
  | remaining + 1, question_count, conversation_history, call_log =>
      let count' := question_count + 1
      let gmsgs := get_guesser_messages conversation_history
      match oracle call_log.length with
      | .error e =>
          { result := .error e,
            question_count := count',
            conversation_history := conversation_history,
            call_log := call_log ++ [gmsgs],
            trace := [(question_count, conversation_history)] }
      | .ok qraw =>
          let question := _make_api_call stream qraw
          let amsgs := get_answerer_messages concept question
          match oracle (call_log.length + 1) with
          | .error e =>
              { result := .error e,
                question_count := count',
                conversation_history := conversation_history,
                call_log := call_log ++ [gmsgs, amsgs],
                trace := [(question_count, conversation_history)] }
          | .ok araw =>
              let answer := _make_api_call stream araw
              let hist' := conversation_history ++ [⟨question, answer⟩]
              if answer = "DONE" then
                { result := .ok { success := true, concept := concept,
                                  questions_asked := count',
                                  conversation := hist' },
                  question_count := count',
                  conversation_history := hist',
                  call_log := call_log ++ [gmsgs, amsgs],
                  trace := [(question_count, conversation_history)] }
              else
                let r := play_from stream oracle concept remaining count' hist'
                  (call_log ++ [gmsgs, amsgs])
                { r with trace := (question_count, conversation_history) :: r.trace }

/-- `play_game(concept)`: reset `conversation_history` to `[]` and
`question_count` to `0`, then run the loop (the guard allows at most
`max_questions` iterations starting from counter `0`). -/
def play_game (self : AIAkinator) (oracle : Oracle) (concept : String) : LoopResult :=
  play_from self.stream oracle concept self.max_questions 0 [] []

/-- The session entry point: construct a fresh object (as `__init__` does,
with counter `0` and empty history) with the given bound and streaming flag,
and play one game. -/
def run_game (concept : String) (max_turns : Nat) (stream : Bool)
    (oracle : Oracle) : LoopResult :=
  play_game ⟨stream, max_turns, 0, []⟩ oracle concept

/-- An oracle whose every response is the plain text `s` (no chunks). -/
def constOracle (s : String) : Oracle := fun _ => .ok ⟨s, []⟩

/-- An oracle answering "DONE" on call index `k` and "Is it a cat?" elsewhere. -/
def doneAtCall (k : Nat) : Oracle :=
  fun n => if n = k then .ok ⟨"DONE", []⟩ else .ok ⟨"Is it a cat?", []⟩

/-- An oracle failing exactly on call index `k` and answering "No" elsewhere. -/
def failAtCall (k : Nat) : Oracle :=
  fun n => if n = k then .error .inferenceError else .ok ⟨"No", []⟩

/-- A streaming oracle yielding the fragments `["D", "ONE"]` on call index 1
(the first answerer call) and a single-fragment question elsewhere. -/
def chunkedOracle : Oracle :=
  fun n => if n = 1 then .ok ⟨"", [some "D", some "ONE"]⟩
    else .ok ⟨"", [some "Is it a cat?"]⟩

/-- An oracle whose questions (even call indices) are all "No" and whose
answers (odd call indices) are all "Sometimes". -/
def altOracle : Oracle :=
  fun n => if n % 2 = 0 then .ok ⟨"No", []⟩ else .ok ⟨"Sometimes", []⟩

/-- The ghost call log matches the conversation: the `2*i`-th call of the run
sent the guesser prompt built from the first `i` recorded exchanges, and the
`2*i+1`-th call sent the answerer prompt built from the concept and the `i`-th
recorded question alone. -/
def CallLogMatches (concept : String) (conv : List Exchange)
    (log : List (List Message)) : Prop :=
  ∀ i e, conv[i]? = some e →
    log[2 * i]? = some (get_guesser_messages (conv.take i)) ∧
    log[2 * i + 1]? = some (get_answerer_messages concept e.question)

/-- The rendering of one history pair as the spec states it:
`Q{i}: …\nA{i}: …` with 1-based index `i`.  Written from the spec for
comparison with the implementation. -/
def spec_pair (i : Nat) (e : Exchange) : String :=
  "Q" ++ toString i ++ ": " ++ e.question ++ "\nA" ++ toString i ++ ": " ++ e.answer

/-- The spec-side rendering of a whole history: the pairs in turn order,
1-based from `i`, joined by newlines.  Written from the spec for comparison
with the implementation. -/
def spec_history_render (i : Nat) : List Exchange → String
  | [] => ""
  | [e] => spec_pair i e
  | e :: rest => spec_pair i e ++ "\n" ++ spec_history_render (i + 1) rest

/-!  ## Loop invariants  -/

/-- Core state invariant of the loop, by induction on the fuel.  Starting from
a state where the counter equals the history length, the run: only appends to
the history; returns outcomes whose fields agree with the final state, with
`questions_asked` equal to the conversation length; leaves the counter one
ahead of the history exactly when an inference error aborted the turn; keeps
`count = length` at every loop-guard observation point; performs at most
`remaining` more iterations; and reaches `count = question_count + remaining`
(i.e. `max_questions`) whenever it returns a non-success outcome. -/
theorem play_from_inv (stream : Bool) (oracle : Oracle) (concept : String)
    (remaining : Nat) :
    ∀ (question_count : Nat) (hist : List Exchange) (log : List (List Message))
      (r : LoopResult),
      question_count = hist.length →
      r = play_from stream oracle concept remaining question_count hist log →
      (∃ t, r.conversation_history = hist ++ t) ∧
      (∀ o, r.result = .ok o → o.concept = concept ∧
        o.conversation = r.conversation_history ∧
        o.questions_asked = r.question_count ∧
        r.question_count = r.conversation_history.length) ∧
      (∀ e, r.result = .error e →
        r.question_count = r.conversation_history.length + 1) ∧
      (∀ p ∈ r.trace, p.1 = p.2.length) ∧
      r.question_count ≤ question_count + remaining ∧
      (∀ o, r.result = .ok o → o.success = false →
        o.questions_asked = question_count + remaining) ∧
      r.trace.length ≤ remaining + 1 := by
  induction remaining with
  | zero =>
    intro qc hist log r h hr
    subst hr
    simp [play_from, h]
  | succ n ih =>
    intro qc hist log r h hr
    subst hr
    rcases hq : oracle log.length with e | qraw
    · simp [play_from, hq, h]
    · rcases ha : oracle (log.length + 1) with e | araw
      · simp [play_from, hq, ha, h]
      · by_cases hd : _make_api_call stream araw = "DONE"
        · simp [play_from, hq, ha, hd, h]
        · have IH := ih (qc + 1)
            (hist ++ [⟨_make_api_call stream qraw, _make_api_call stream araw⟩])
            (log ++ [get_guesser_messages hist,
              get_answerer_messages concept (_make_api_call stream qraw)])
            _ (by simp [h]) rfl
          simp only [play_from, hq, ha, hd, if_neg hd]
          obtain ⟨⟨t, ht⟩, hok, herr, htr, hle, hfail, htl⟩ := IH
          refine ⟨⟨⟨_make_api_call stream qraw, _make_api_call stream araw⟩ :: t, by
            simpa using ht⟩, ?_, ?_, ?_, ?_, ?_, ?_⟩
          · simpa using hok
          · simpa using herr
          · intro p hp
            simp at hp
            rcases hp with hp | hp
            · simp [hp, h]
            · exact htr p hp
          · refine le_trans ?_ (le_of_eq (by omega : (qc + 1) + n = qc + (n + 1)))
            exact hle
          · intro o ho hs
            have := hfail o (by simpa using ho) hs
            omega
          · simpa using Nat.succ_le_succ htl

/-- Sentinel invariant of the loop: starting from a history in which no
answer is the sentinel, a returned outcome succeeds exactly when the last
recorded answer equals "DONE"; every non-final recorded answer differs from
"DONE" (the session stops immediately on the winning turn); and an aborted
run records no "DONE" answer at all. -/
theorem play_from_done_inv (stream : Bool) (oracle : Oracle) (concept : String)
    (remaining : Nat) :
    ∀ (question_count : Nat) (hist : List Exchange) (log : List (List Message))
      (r : LoopResult),
      (∀ e ∈ hist, e.answer ≠ "DONE") →
      r = play_from stream oracle concept remaining question_count hist log →
      (∀ o, r.result = .ok o → (o.success = true ↔
        ∃ e, o.conversation.getLast? = some e ∧ e.answer = "DONE")) ∧
      (∀ e ∈ r.conversation_history.dropLast, e.answer ≠ "DONE") ∧
      (∀ e', r.result = .error e' → ∀ e ∈ r.conversation_history, e.answer ≠ "DONE") := by
  induction remaining with
  | zero =>
    intro qc hist log r h hr
    subst hr
    refine ⟨?_, ?_, ?_⟩
    · intro o ho
      simp [play_from] at ho
      subst ho
      simp only [Bool.false_eq_true, false_iff]
      rintro ⟨e, hlast, hdone⟩
      exact h e (List.mem_of_mem_getLast? hlast) hdone
    · simp only [play_from]
      exact fun e he => h e (List.dropLast_subset hist he)
    · simp [play_from]
  | succ n ih =>
    intro qc hist log r h hr
    subst hr
    rcases hq : oracle log.length with e | qraw
    · refine ⟨?_, ?_, ?_⟩
      · intro o ho
        simp [play_from, hq] at ho
      · simp only [play_from, hq]
        exact fun e he => h e (List.dropLast_subset hist he)
      · simp only [play_from, hq]
        exact fun e' _ => h
    · rcases ha : oracle (log.length + 1) with e | araw
      · refine ⟨?_, ?_, ?_⟩
        · intro o ho
          simp [play_from, hq, ha] at ho
        · simp only [play_from, hq, ha]
          exact fun e he => h e (List.dropLast_subset hist he)
        · simp only [play_from, hq, ha]
          exact fun e' _ => h
      · by_cases hd : _make_api_call stream araw = "DONE"
        · refine ⟨?_, ?_, ?_⟩
          · intro o ho
            simp [play_from, hq, ha, if_pos hd] at ho
            subst ho
            exact iff_of_true rfl
              ⟨⟨_make_api_call stream qraw, _make_api_call stream araw⟩, by simp, hd⟩
          · simp only [play_from, hq, ha, if_pos hd]
            simp only [List.dropLast_concat]
            exact h
          · simp [play_from, hq, ha, hd]
        · have IH := ih (qc + 1)
            (hist ++ [⟨_make_api_call stream qraw, _make_api_call stream araw⟩])
            (log ++ [get_guesser_messages hist,
              get_answerer_messages concept (_make_api_call stream qraw)])
            _ (by
              intro e he
              rcases List.mem_append.1 he with he' | he'
              · exact h e he'
              · have : e = ⟨_make_api_call stream qraw, _make_api_call stream araw⟩ := by
                  simpa using he'
                rw [this]
                exact hd) rfl
          simp only [play_from, hq, ha, if_neg hd]
          obtain ⟨hok, hdl, herr⟩ := IH
          exact ⟨by simpa using hok, by simpa using hdl, by simpa using herr⟩
/-- Call-accounting invariant of the loop: with two prior calls per recorded
exchange and all prior calls successful, a returned outcome has consumed
exactly two calls per exchange; an aborted run stops on the single failing
call (one or two calls into the failing turn, every earlier call having
succeeded exactly once — no retry); and every exchange recorded past the
initial history is built from the texts of its own two consecutive oracle
responses. -/
theorem play_from_calls_inv (stream : Bool) (oracle : Oracle) (concept : String)
    (remaining : Nat) :
    ∀ (question_count : Nat) (hist : List Exchange) (log : List (List Message))
      (r : LoopResult),
      log.length = 2 * hist.length →
      (∀ m < log.length, ∃ x, oracle m = .ok x) →
      r = play_from stream oracle concept remaining question_count hist log →
      (∃ t, r.conversation_history = hist ++ t) ∧
      (∀ o, r.result = .ok o →
        r.call_log.length = 2 * r.conversation_history.length) ∧
      (∀ e, r.result = .error e →
        (r.call_log.length = 2 * r.conversation_history.length + 1 ∨
          r.call_log.length = 2 * r.conversation_history.length + 2) ∧
        oracle (r.call_log.length - 1) = .error e ∧
        (∀ m < r.call_log.length - 1, ∃ x, oracle m = .ok x)) ∧
      (∀ i, hist.length ≤ i → i < r.conversation_history.length →
        ∃ qraw araw, oracle (2 * i) = .ok qraw ∧ oracle (2 * i + 1) = .ok araw ∧
          r.conversation_history[i]? =
            some ⟨_make_api_call stream qraw, _make_api_call stream araw⟩) := by
  induction remaining with
  | zero =>
    intro qc hist log r hlen hok hr
    subst hr
    refine ⟨⟨[], by simp [play_from]⟩, ?_, ?_, ?_⟩
    · intro o _
      simpa [play_from] using hlen
    · intro e he
      simp [play_from] at he
    · intro i hle hi
      simp only [play_from] at hi
      omega
  | succ n ih =>
    intro qc hist log r hlen hok hr
    subst hr
    rcases hq : oracle log.length with e | qraw
    · refine ⟨⟨[], by simp [play_from, hq]⟩, ?_, ?_, ?_⟩
      · intro o ho
        simp [play_from, hq] at ho
      · intro e' he
        simp only [play_from, hq] at he ⊢
        have he' : e = e' := by cases e; cases e'; rfl
        subst he'
        refine ⟨by simp [hlen], ?_, ?_⟩
        · simpa [hlen] using hq
        · intro m hm
          exact hok m (by simpa using hm)
      · intro i hle hi
        simp only [play_from, hq] at hi
        omega
    · rcases ha : oracle (log.length + 1) with e | araw
      · refine ⟨⟨[], by simp [play_from, hq, ha]⟩, ?_, ?_, ?_⟩
        · intro o ho
          simp [play_from, hq, ha] at ho
        · intro e' he
          simp only [play_from, hq, ha] at he ⊢
          have he' : e = e' := by cases e; cases e'; rfl
          subst he'
          refine ⟨by simp [hlen], ?_, ?_⟩
          · simpa [hlen] using ha
          · intro m hm
            simp only [List.length_append, List.length_cons, List.length_nil,
              Nat.add_sub_cancel] at hm
            rcases (by omega : m < log.length ∨ m = log.length) with hm' | hm'
            · exact hok m hm'
            · exact ⟨qraw, hm' ▸ hq⟩
        · intro i hle hi
          simp only [play_from, hq, ha] at hi
          omega
      · by_cases hd : _make_api_call stream araw = "DONE"
        · refine ⟨⟨[⟨_make_api_call stream qraw, _make_api_call stream araw⟩],
            by simp [play_from, hq, ha, if_pos hd]⟩, ?_, ?_, ?_⟩
          · intro o _
            simp only [play_from, hq, ha, if_pos hd]
            simp [hlen, Nat.mul_add]
          · intro e he
            simp [play_from, hq, ha, if_pos hd] at he
          · intro i hle hi
            simp only [play_from, hq, ha, if_pos hd] at hi ⊢
            simp only [List.length_append, List.length_cons, List.length_nil] at hi
            have hieq : i = hist.length := by omega
            subst hieq
            refine ⟨qraw, araw, by rw [← hlen]; exact hq, by rw [← hlen]; exact ha, ?_⟩
            rw [List.getElem?_append_right (le_refl hist.length)]
            simp
        · have IH := ih (qc + 1)
            (hist ++ [⟨_make_api_call stream qraw, _make_api_call stream araw⟩])
            (log ++ [get_guesser_messages hist,
              get_answerer_messages concept (_make_api_call stream qraw)])
            _ (by simp [hlen, Nat.mul_add])
            (by
              intro m hm
              simp only [List.length_append, List.length_cons, List.length_nil] at hm
              rcases (by omega : m < log.length ∨ m = log.length ∨ m = log.length + 1)
                with hm' | hm' | hm'
              · exact hok m hm'
              · exact ⟨qraw, hm' ▸ hq⟩
              · exact ⟨araw, hm' ▸ ha⟩) rfl
          simp only [play_from, hq, ha, if_neg hd]
          obtain ⟨⟨t, ht⟩, hfin, herr, hcorr⟩ := IH
          refine ⟨⟨⟨_make_api_call stream qraw, _make_api_call stream araw⟩ :: t,
            by simpa using ht⟩, by simpa using hfin, by simpa using herr, ?_⟩
          intro i hle hi
          rcases Nat.eq_or_lt_of_le hle with hieq | hgt
          · subst hieq
            refine ⟨qraw, araw, by rw [← hlen]; exact hq, by rw [← hlen]; exact ha, ?_⟩
            have ht' : (play_from stream oracle concept n (qc + 1)
                (hist ++ [⟨_make_api_call stream qraw, _make_api_call stream araw⟩])
                (log ++ [get_guesser_messages hist,
                  get_answerer_messages concept
                    (_make_api_call stream qraw)])).conversation_history =
                hist ++ ⟨_make_api_call stream qraw, _make_api_call stream araw⟩ :: t := by
              simpa using ht
            rw [ht', List.getElem?_append_right (le_refl hist.length)]
            simp
          · exact hcorr i (by simpa using hgt) (by simpa using hi)

/-- The loop preserves `CallLogMatches`: every completed turn logs exactly the
guesser prompt for the history before it and the answerer prompt for its own
question. -/
theorem play_from_log_content (stream : Bool) (oracle : Oracle) (concept : String)
    (remaining : Nat) :
    ∀ (question_count : Nat) (hist : List Exchange) (log : List (List Message))
      (r : LoopResult),
      log.length = 2 * hist.length →
      CallLogMatches concept hist log →
      r = play_from stream oracle concept remaining question_count hist log →
      CallLogMatches concept r.conversation_history r.call_log := by
  induction remaining with
  | zero =>
    intro qc hist log r hlen hm hr
    subst hr
    simpa [play_from] using hm
  | succ n ih =>
    intro qc hist log r hlen hm hr
    subst hr
    have hstep : ∀ (extra : List (List Message)),
        CallLogMatches concept hist (log ++ extra) := by
      intro extra i e hie
      have hi : i < hist.length := by
        by_contra hge
        simp [List.getElem?_eq_none (by omega : hist.length ≤ i)] at hie
      obtain ⟨h1, h2⟩ := hm i e hie
      constructor
      · rw [List.getElem?_append_left (by omega : 2 * i < log.length)]
        exact h1
      · rw [List.getElem?_append_left (by omega : 2 * i + 1 < log.length)]
        exact h2
    rcases hq : oracle log.length with e | qraw
    · simp only [play_from, hq]
      exact hstep [get_guesser_messages hist]
    · rcases ha : oracle (log.length + 1) with e | araw
      · simp only [play_from, hq, ha]
        exact hstep [get_guesser_messages hist,
          get_answerer_messages concept (_make_api_call stream qraw)]
      · have hext : CallLogMatches concept
            (hist ++ [⟨_make_api_call stream qraw, _make_api_call stream araw⟩])
            (log ++ [get_guesser_messages hist,
              get_answerer_messages concept (_make_api_call stream qraw)]) := by
          intro i e hie
          rcases (by
              have : i < hist.length + 1 := by
                by_contra hge
                rw [List.getElem?_eq_none (by simp; omega)] at hie
                exact Option.noConfusion hie
              omega : i < hist.length ∨ i = hist.length) with hi | hi
          · rw [List.getElem?_append_left hi] at hie
            obtain ⟨h1, h2⟩ := hm i e hie
            have hlog1 : 2 * i < log.length := by omega
            have hlog2 : 2 * i + 1 < log.length := by omega
            rw [List.getElem?_append_left hlog1, List.getElem?_append_left hlog2,
              List.take_append_of_le_length (le_of_lt hi)]
            exact ⟨h1, h2⟩
          · subst hi
            rw [List.getElem?_append_right le_rfl] at hie
            simp at hie
            constructor
            · rw [← hlen, List.getElem?_append_right le_rfl]
              simp [← hie, List.take_left]
            · rw [← hlen]
              rw [(by omega : log.length + 1 = log.length + 1)]
              rw [List.getElem?_append_right (by omega)]
              simp [← hie]
        rcases hd : decide (_make_api_call stream araw = "DONE") with _ | _
        · have hd' : ¬ _make_api_call stream araw = "DONE" := of_decide_eq_false hd
          have IH := ih (qc + 1)
            (hist ++ [⟨_make_api_call stream qraw, _make_api_call stream araw⟩])
            (log ++ [get_guesser_messages hist,
              get_answerer_messages concept (_make_api_call stream qraw)])
            _ (by simp [hlen, Nat.mul_add]) hext rfl
          simp only [play_from, hq, ha, if_neg hd']
          simpa using IH
        · have hd' : _make_api_call stream araw = "DONE" := of_decide_eq_true hd
          simp only [play_from, hq, ha, if_pos hd']
          exact hext

/-!  ## String-level lemmas: stream draining and history rendering  -/

theorem foldl_str_append (l : List String) :
    ∀ (a b : String), l.foldl (· ++ ·) (a ++ b) = a ++ l.foldl (· ++ ·) b := by
  induction l with
  | nil => intro a b; rfl
  | cons x l ihl =>
    intro a b
    simp only [List.foldl_cons]
    rw [String.append_assoc, ihl]

theorem String.join_cons' (x : String) (l : List String) :
    String.join (x :: l) = x ++ String.join l := by
  show (x :: l).foldl (· ++ ·) "" = x ++ l.foldl (· ++ ·) ""
  simp only [List.foldl_cons]
  rw [String.empty_append, ← String.append_empty x, foldl_str_append,
    String.append_empty]

theorem stream_drain_go (chunks : List (Option String)) :
    ∀ (acc : String),
      chunks.foldl
        (fun full_response c =>
          match c with
          | some content =>
              if content = "" then full_response else full_response ++ content
          | none => full_response) acc =
      acc ++ String.join (chunks.filterMap id) := by
  induction chunks with
  | nil => intro acc; simp [String.join, String.append_empty]
  | cons c chunks ihc =>
    intro acc
    match c with
    | none => simpa using ihc acc
    | some s =>
      have hfm : List.filterMap (id : Option String → Option String)
          (some s :: chunks) = s :: List.filterMap id chunks := by simp
      by_cases hs : s = ""
      · subst hs
        show List.foldl _ acc chunks =
          acc ++ String.join (List.filterMap id (some "" :: chunks))
        rw [ihc acc, hfm, String.join_cons', String.empty_append]
      · show List.foldl _ (if s = "" then acc else acc ++ s) chunks =
          acc ++ String.join (List.filterMap id (some s :: chunks))
        rw [if_neg hs, ihc (acc ++ s), hfm, String.join_cons', String.append_assoc]

/-- The drained streaming text is exactly the concatenation, in emission
order, of all yielded chunk contents. -/
theorem stream_drain_eq_join (chunks : List (Option String)) :
    stream_drain chunks = String.join (chunks.filterMap id) := by
  show chunks.foldl _ "" = _
  rw [stream_drain_go chunks "", String.empty_append]

theorem history_line_eq_spec_pair (i : Nat) (e : Exchange) :
    history_line i e = spec_pair (i + 1) e := rfl

theorem intercalate_cons_cons (s x y : String) (l : List String) :
    String.intercalate s (x :: y :: l) = x ++ s ++ String.intercalate s (y :: l) := by
  show String.intercalate.go x s (y :: l) = x ++ s ++ String.intercalate.go y s l
  suffices h : ∀ (l : List String) (a b : String),
      String.intercalate.go (a ++ b) s l = a ++ String.intercalate.go b s l by
    have := h l (x ++ s) y
    simpa [String.intercalate.go, String.append_assoc] using this
  intro l
  induction l with
  | nil => intro a b; simp [String.intercalate.go]
  | cons z l ihz =>
    intro a b
    show String.intercalate.go (a ++ b ++ s ++ z) s l =
      a ++ String.intercalate.go (b ++ s ++ z) s l
    rw [← ihz]
    simp [String.append_assoc]

/-- The joined history text of `get_guesser_question` equals the spec's
rendering: pairs `Q{i}: …\nA{i}: …` with 1-based indices in turn order,
newline-separated. -/
theorem intercalate_enumFrom_eq_spec (h : List Exchange) :
    ∀ n : Nat,
      String.intercalate "\n"
        ((List.enumFrom n h).map (fun p => history_line p.1 p.2)) =
      spec_history_render (n + 1) h := by
  induction h with
  | nil => intro n; rfl
  | cons e rest ihe =>
    intro n
    cases rest with
    | nil => rfl
    | cons e' rest' =>
      show String.intercalate "\n"
        (history_line n e :: (List.enumFrom (n + 1) (e' :: rest')).map
          (fun p => history_line p.1 p.2)) = _
      rw [List.enumFrom_cons, List.map_cons, intercalate_cons_cons]
      have h2 := ihe (n + 1)
      rw [List.enumFrom_cons, List.map_cons] at h2
      rw [h2]
      rfl

theorem spec_pair_length (i : Nat) (e : Exchange) : 0 < (spec_pair i e).length := by
  have hq : ("Q" : String).length = 1 := rfl
  simp only [spec_pair, String.length_append, hq]
  omega

theorem spec_history_render_ne_empty (i : Nat) (e : Exchange) (rest : List Exchange) :
    spec_history_render i (e :: rest) ≠ "" := by
  intro hcontra
  have hlen : (spec_history_render i (e :: rest)).length = 0 := by rw [hcontra]; rfl
  cases rest with
  | nil =>
    rw [show spec_history_render i [e] = spec_pair i e from rfl] at hlen
    have := spec_pair_length i e
    omega
  | cons e' rest' =>
    rw [show spec_history_render i (e :: e' :: rest') =
      spec_pair i e ++ "\n" ++ spec_history_render (i + 1) (e' :: rest') from rfl] at hlen
    simp only [String.length_append] at hlen
    have := spec_pair_length i e
    omega

/-- `history_text` agrees with the spec-side rendering, and is empty exactly
on the empty history. -/
theorem history_text_eq_spec (h : List Exchange) :
    history_text h = (if h = [] then "" else spec_history_render 1 h) ∧
    (history_text h = "" ↔ h = []) := by
  cases h with
  | nil => exact ⟨rfl, by simp [history_text]⟩
  | cons e rest =>
    have he : history_text (e :: rest) = spec_history_render 1 (e :: rest) := by
      show String.intercalate "\n" (((e :: rest).enum).map
        (fun p => history_line p.1 p.2)) = _
      rw [List.enum_eq_enumFrom, intercalate_enumFrom_eq_spec (e :: rest) 0]
    refine ⟨by simpa using he, ?_⟩
    rw [he]
    exact ⟨fun hc => absurd hc (spec_history_render_ne_empty 1 e rest),
      fun hc => List.noConfusion hc⟩

/-- The loop never inspects the concept: it only copies it into the outcome
record and into the answerer prompts of the ghost call log.  Two runs with the
same streaming flag, oracle and fuel, started from the same state, evolve
identically for any two concepts — in particular the empty concept is not
validated and behaves like every other concept. -/
theorem play_from_concept_irrelevant (stream : Bool) (oracle : Oracle)
    (c₁ c₂ : String) (remaining : Nat) :
    ∀ (question_count : Nat) (hist : List Exchange) (log₁ log₂ : List (List Message)),
      log₁.length = log₂.length →
      (play_from stream oracle c₁ remaining question_count hist log₁).conversation_history =
        (play_from stream oracle c₂ remaining question_count hist log₂).conversation_history ∧
      (play_from stream oracle c₁ remaining question_count hist log₁).question_count =
        (play_from stream oracle c₂ remaining question_count hist log₂).question_count ∧
      (play_from stream oracle c₁ remaining question_count hist log₁).trace =
        (play_from stream oracle c₂ remaining question_count hist log₂).trace ∧
      (∀ e, (play_from stream oracle c₁ remaining question_count hist log₁).result = .error e ↔
        (play_from stream oracle c₂ remaining question_count hist log₂).result = .error e) ∧
      (∀ o, (play_from stream oracle c₁ remaining question_count hist log₁).result = .ok o →
        (play_from stream oracle c₂ remaining question_count hist log₂).result =
          .ok ⟨o.success, c₂, o.questions_asked, o.conversation⟩) := by
  induction remaining with
  | zero =>
    intro qc hist log₁ log₂ hlen
    refine ⟨rfl, rfl, rfl, fun e => by simp [play_from], fun o ho => ?_⟩
    simp only [play_from] at ho ⊢
    have : o = ⟨false, c₁, qc, hist⟩ := by
      cases ho
      rfl
    subst this
    rfl
  | succ n ih =>
    intro qc hist log₁ log₂ hlen
    rcases hq : oracle log₁.length with e | qraw
    · have hq₂ : oracle log₂.length = .error e := hlen ▸ hq
      refine ⟨?_, ?_, ?_, ?_, ?_⟩ <;>
        simp [play_from, hq, hq₂]
    · have hq₂ : oracle log₂.length = .ok qraw := hlen ▸ hq
      rcases ha : oracle (log₁.length + 1) with e | araw
      · have ha₂ : oracle (log₂.length + 1) = .error e := hlen ▸ ha
        refine ⟨?_, ?_, ?_, ?_, ?_⟩ <;>
          simp [play_from, hq, hq₂, ha, ha₂]
      · have ha₂ : oracle (log₂.length + 1) = .ok araw := hlen ▸ ha
        by_cases hd : _make_api_call stream araw = "DONE"
        · refine ⟨?_, ?_, ?_, ?_, ?_⟩
          · simp [play_from, hq, hq₂, ha, ha₂, if_pos hd]
          · simp [play_from, hq, hq₂, ha, ha₂, if_pos hd]
          · simp [play_from, hq, hq₂, ha, ha₂, if_pos hd]
          · intro e
            simp [play_from, hq, hq₂, ha, ha₂, if_pos hd]
          · intro o ho
            simp only [play_from, hq, hq₂, ha, ha₂, if_pos hd] at ho ⊢
            injection ho with h2
            subst h2
            rfl
        · have IH := ih (qc + 1)
            (hist ++ [⟨_make_api_call stream qraw, _make_api_call stream araw⟩])
            (log₁ ++ [get_guesser_messages hist,
              get_answerer_messages c₁ (_make_api_call stream qraw)])
            (log₂ ++ [get_guesser_messages hist,
              get_answerer_messages c₂ (_make_api_call stream qraw)])
            (by simp [hlen])
          obtain ⟨ihconv, ihqc, ihtr, iherr, ihok⟩ := IH
          refine ⟨?_, ?_, ?_, ?_, ?_⟩ <;>
            simp only [play_from, hq, hq₂, ha, ha₂, if_neg hd]
          · exact ihconv
          · exact ihqc
          · exact congrArg (fun l => (qc, hist) :: l) ihtr
          · intro e
            exact iherr e
          · intro o ho
            exact ihok o ho

/-!  ## Instantiation of the loop invariants at `play_game`  -/

theorem play_game_basic (a : AIAkinator) (oracle : Oracle) (concept : String) :
    (∀ o, (play_game a oracle concept).result = .ok o → o.concept = concept ∧
      o.conversation = (play_game a oracle concept).conversation_history ∧
      o.questions_asked = (play_game a oracle concept).question_count ∧
      (play_game a oracle concept).question_count =
        (play_game a oracle concept).conversation_history.length) ∧
    (∀ e, (play_game a oracle concept).result = .error e →
      (play_game a oracle concept).question_count =
        (play_game a oracle concept).conversation_history.length + 1) ∧
    (∀ p ∈ (play_game a oracle concept).trace, p.1 = p.2.length) ∧
    (play_game a oracle concept).question_count ≤ a.max_questions ∧
    (∀ o, (play_game a oracle concept).result = .ok o → o.success = false →
      o.questions_asked = a.max_questions) ∧
    (play_game a oracle concept).trace.length ≤ a.max_questions + 1 := by
  obtain ⟨-, hok, herr, htr, hle, hfail, htl⟩ :=
    play_from_inv a.stream oracle concept a.max_questions 0 [] []
      (play_game a oracle concept) rfl rfl
  exact ⟨hok, herr, htr, by simpa using hle, by simpa using hfail, htl⟩

theorem play_game_done (a : AIAkinator) (oracle : Oracle) (concept : String) :
    (∀ o, (play_game a oracle concept).result = .ok o → (o.success = true ↔
      ∃ e, o.conversation.getLast? = some e ∧ e.answer = "DONE")) ∧
    (∀ e ∈ (play_game a oracle concept).conversation_history.dropLast,
      e.answer ≠ "DONE") ∧
    (∀ e', (play_game a oracle concept).result = .error e' →
      ∀ e ∈ (play_game a oracle concept).conversation_history, e.answer ≠ "DONE") :=
  play_from_done_inv a.stream oracle concept a.max_questions 0 [] []
    (play_game a oracle concept) (by simp) rfl

theorem play_game_calls (a : AIAkinator) (oracle : Oracle) (concept : String) :
    (∀ o, (play_game a oracle concept).result = .ok o →
      (play_game a oracle concept).call_log.length =
        2 * (play_game a oracle concept).conversation_history.length) ∧
    (∀ e, (play_game a oracle concept).result = .error e →
      ((play_game a oracle concept).call_log.length =
          2 * (play_game a oracle concept).conversation_history.length + 1 ∨
        (play_game a oracle concept).call_log.length =
          2 * (play_game a oracle concept).conversation_history.length + 2) ∧
      oracle ((play_game a oracle concept).call_log.length - 1) = .error e ∧
      (∀ m < (play_game a oracle concept).call_log.length - 1, ∃ x, oracle m = .ok x)) ∧
    (∀ i, i < (play_game a oracle concept).conversation_history.length →
      ∃ qraw araw, oracle (2 * i) = .ok qraw ∧ oracle (2 * i + 1) = .ok araw ∧
        (play_game a oracle concept).conversation_history[i]? =
          some ⟨_make_api_call a.stream qraw, _make_api_call a.stream araw⟩) := by
  obtain ⟨-, hcok, hcerr, hcorr⟩ :=
    play_from_calls_inv a.stream oracle concept a.max_questions 0 [] []
      (play_game a oracle concept) (by simp) (by simp) rfl
  exact ⟨hcok, hcerr, fun i hi => hcorr i (Nat.zero_le i) hi⟩

theorem play_game_log (a : AIAkinator) (oracle : Oracle) (concept : String) :
    CallLogMatches concept (play_game a oracle concept).conversation_history
      (play_game a oracle concept).call_log :=
  play_from_log_content a.stream oracle concept a.max_questions 0 [] []
    (play_game a oracle concept) (by simp)
    (by intro i e he; simp at he) rfl

/-!  ## The claims  -/

/-- C1: a run's outcome has `success = true` exactly when some recorded
answer equals the string "DONE" (case-sensitive, untrimmed: plain string
equality); the winning Exchange is the last one recorded, its 1-based index
equals `questions_asked`, and no further turn follows it.  Any other answer
text yields a normal non-terminal turn, so every earlier answer differs from
"DONE". -/
theorem c1_done_sentinel_win (a : AIAkinator) (oracle : Oracle) (concept : String)
    (o : Outcome) (h : (play_game a oracle concept).result = .ok o) :
    (o.success = true ↔ ∃ e ∈ o.conversation, e.answer = "DONE") ∧
    (∀ i, ∀ hi : i < o.conversation.length,
      (o.conversation.get ⟨i, hi⟩).answer = "DONE" →
        i + 1 = o.questions_asked ∧ i + 1 = o.conversation.length) := by
  obtain ⟨hbasic, -, -, -, -, -⟩ := play_game_basic a oracle concept
  obtain ⟨hconcept, hconv, hqa, hqc⟩ := hbasic o h
  obtain ⟨hiff, hdrop, -⟩ := play_game_done a oracle concept
  have hiff' := hiff o h
  have hqlen : o.questions_asked = o.conversation.length := by
    rw [hqa, hqc, hconv]
  have hlast0 : ∀ i, i < o.conversation.length → ∀ e, o.conversation[i]? = some e →
      e.answer = "DONE" → i + 1 = o.conversation.length := by
    intro i hi e he hdone
    by_contra hne
    have hi1 : i < o.conversation.length - 1 := by omega
    have hmem : e ∈ o.conversation.dropLast := by
      rw [List.dropLast_eq_take]
      have hgetei : o.conversation[i] = e := by
        have h2 := he
        rw [List.getElem?_eq_getElem hi] at h2
        exact Option.some.inj h2
      have htk : (o.conversation.take (o.conversation.length - 1))[i]? = some e := by
        simp [List.getElem?_take, hi1, hgetei]
      exact List.getElem?_mem htk
    exact hdrop e (hconv ▸ hmem) hdone
  have hlast : ∀ i, ∀ hi : i < o.conversation.length,
      (o.conversation.get ⟨i, hi⟩).answer = "DONE" →
        i + 1 = o.conversation.length := by
    intro i hi hdone
    exact hlast0 i hi (o.conversation.get ⟨i, hi⟩)
      (by simp [List.get_eq_getElem, List.getElem?_eq_getElem hi]) hdone
  refine ⟨⟨fun hs => ?_, fun hex => ?_⟩, fun i hi hdone => ⟨?_, hlast i hi hdone⟩⟩
  · obtain ⟨e, hl, hd⟩ := hiff'.1 hs
    exact ⟨e, List.mem_of_mem_getLast? hl, hd⟩
  · obtain ⟨e, hmem, hdone⟩ := hex
    obtain ⟨i, hi, hget⟩ := List.mem_iff_getElem.1 hmem
    have hd' : (o.conversation.get ⟨i, hi⟩).answer = "DONE" := by
      simpa [List.get_eq_getElem, hget] using hdone
    have hilen := hlast i hi hd'
    apply hiff'.2
    refine ⟨o.conversation.get ⟨i, hi⟩, ?_, hd'⟩
    rw [List.getLast?_eq_getElem?]
    have hidx : o.conversation.length - 1 = i := by omega
    rw [hidx]
    simp [List.get_eq_getElem, List.getElem?_eq_getElem hi]
  · have h1 := hlast i hi hdone
    omega

/-- C2: the turn counter equals the length of the conversation history at
every loop-boundary observation point of the run, and in the final outcome
(`questions_asked = length conversation`, both when the run succeeds and when
it exhausts the turn bound), as well as in the final object state after a
completed run. -/
theorem c2_count_equals_history (a : AIAkinator) (oracle : Oracle) (concept : String) :
    (∀ p ∈ (play_game a oracle concept).trace, p.1 = p.2.length) ∧
    (∀ o, (play_game a oracle concept).result = .ok o →
      o.questions_asked = o.conversation.length ∧
      (play_game a oracle concept).question_count =
        (play_game a oracle concept).conversation_history.length) := by
  obtain ⟨hok, -, htr, -, -, -⟩ := play_game_basic a oracle concept
  refine ⟨htr, fun o ho => ?_⟩
  obtain ⟨-, hconv, hqa, hqc⟩ := hok o ho
  exact ⟨by rw [hqa, hqc, hconv], hqc⟩

/-- C4: the loop runs at most `max_questions` iterations whatever the oracle
returns — the counter, the history, the number of guard observations and the
number of inference calls are all bounded, and `questions_asked` of any
returned outcome never exceeds the bound. -/
theorem c4_bounded_turns (a : AIAkinator) (oracle : Oracle) (concept : String) :
    (play_game a oracle concept).question_count ≤ a.max_questions ∧
    (play_game a oracle concept).conversation_history.length ≤ a.max_questions ∧
    (play_game a oracle concept).trace.length ≤ a.max_questions + 1 ∧
    (play_game a oracle concept).call_log.length ≤ 2 * a.max_questions ∧
    (∀ o, (play_game a oracle concept).result = .ok o →
      o.questions_asked ≤ a.max_questions) := by
  obtain ⟨hok, herr, htr, hle, hfail, htl⟩ := play_game_basic a oracle concept
  have hconvlen : (play_game a oracle concept).conversation_history.length ≤
      a.max_questions := by
    rcases hres : (play_game a oracle concept).result with e | o
    · have := herr e hres
      omega
    · have := (hok o hres).2.2.2
      omega
  obtain ⟨hcok, hcerr, -⟩ := play_game_calls a oracle concept
  refine ⟨hle, hconvlen, htl, ?_, fun o ho => ?_⟩
  · rcases hres : (play_game a oracle concept).result with e | o
    · obtain ⟨hlor, -, -⟩ := hcerr e hres
      have := herr e hres
      rcases hlor with h1 | h1 <;> omega
    · have h1 := hcok o hres
      omega
  · have h2 := (hok o ho).2.2.1
    omega

/-- C5: a run that returns an outcome in which no recorded answer equals
"DONE" is the exhaustion case: `success = false` and `questions_asked` equals
the configured maximum. -/
theorem c5_exhaustion_outcome (a : AIAkinator) (oracle : Oracle) (concept : String)
    (o : Outcome) (h : (play_game a oracle concept).result = .ok o)
    (hnd : ∀ e ∈ o.conversation, e.answer ≠ "DONE") :
    o.success = false ∧ o.questions_asked = a.max_questions := by
  obtain ⟨hiff, -, -⟩ := play_game_done a oracle concept
  have hsf : o.success = false := by
    cases hsucc : o.success with
    | false => rfl
    | true =>
      exfalso
      obtain ⟨e, hl, hd⟩ := (hiff o h).1 hsucc
      exact hnd e (List.mem_of_mem_getLast? hl) hd
  obtain ⟨-, -, -, -, hfail, -⟩ := play_game_basic a oracle concept
  exact ⟨hsf, hfail o h hsf⟩

/-- C3 (counterexample): passing the empty concept to the session entry point
does not fail and inference calls are made — the run completes normally (here
winning on turn 1 after two calls), contradicting the claim that it fails
with InvalidInput before any Inference Client call. -/
theorem c3_counterexample :
    (run_game "" 2 false (doneAtCall 1)).result =
      .ok ⟨true, "", 1, [⟨"Is it a cat?", "DONE"⟩]⟩ ∧
    (run_game "" 2 false (doneAtCall 1)).call_log.length = 2 := by
  constructor
  · rfl
  · rfl

/-- C3 (amended): the code performs no validation of the concept: the empty
string is not rejected, no InvalidInput failure exists, inference calls are
made as usual (the call log is non-empty whenever `max_turns > 0`), and the
run evolves exactly as with any other concept — same history, counter and
trace, the same failure behavior, and an outcome differing only in its
recorded concept string. -/
theorem c3_empty_concept_not_validated (max_turns : Nat) (stream : Bool)
    (oracle : Oracle) (c : String) (hpos : 0 < max_turns) :
    0 < (run_game "" max_turns stream oracle).call_log.length ∧
    (run_game "" max_turns stream oracle).conversation_history =
      (run_game c max_turns stream oracle).conversation_history ∧
    (run_game "" max_turns stream oracle).question_count =
      (run_game c max_turns stream oracle).question_count ∧
    (run_game "" max_turns stream oracle).trace =
      (run_game c max_turns stream oracle).trace ∧
    (∀ e, (run_game "" max_turns stream oracle).result = .error e ↔
      (run_game c max_turns stream oracle).result = .error e) ∧
    (∀ o, (run_game "" max_turns stream oracle).result = .ok o →
      (run_game c max_turns stream oracle).result =
        .ok ⟨o.success, c, o.questions_asked, o.conversation⟩) := by
  have hirr := play_from_concept_irrelevant stream oracle "" c max_turns 0 [] [] [] rfl
  obtain ⟨hconv, hqc, htr, herr2, hok2⟩ := hirr
  refine ⟨?_, hconv, hqc, htr, herr2, hok2⟩
  obtain ⟨hok, herr, -, -, hfail, -⟩ :=
    play_game_basic ⟨stream, max_turns, 0, []⟩ oracle ""
  obtain ⟨hcok, hcerr, -⟩ := play_game_calls ⟨stream, max_turns, 0, []⟩ oracle ""
  obtain ⟨hiff, -, -⟩ := play_game_done ⟨stream, max_turns, 0, []⟩ oracle ""
  show 0 < (play_game (⟨stream, max_turns, 0, []⟩ : AIAkinator) oracle "").call_log.length
  rcases hres : (play_game (⟨stream, max_turns, 0, []⟩ : AIAkinator) oracle "").result
    with e | o
  · obtain ⟨hlor, -, -⟩ := hcerr e hres
    rcases hlor with h1 | h1 <;> omega
  · have h1 := hcok o hres
    obtain ⟨-, hco, hqa, hqcount⟩ := hok o hres
    have hlenpos : 0 <
        (play_game (⟨stream, max_turns, 0, []⟩ : AIAkinator) oracle "").conversation_history.length := by
      cases hsucc : o.success with
      | true =>
        obtain ⟨e, hl, -⟩ := (hiff o hres).1 hsucc
        have hmem := List.mem_of_mem_getLast? hl
        have hne := List.length_pos.2 (List.ne_nil_of_mem hmem)
        rw [hco] at hne
        omega
      | false =>
        have hmax : o.questions_asked = max_turns := hfail o hres hsucc
        omega
    omega

/-- C6: with streaming enabled, every recorded question and answer is the
full concatenation, in emission order, of the fragments yielded by its own
inference call (never a partial fragment), and the "DONE" win check is
decided by that full concatenation: the outcome succeeds exactly when the
last fully-drained answer equals "DONE". -/
theorem c6_streaming_full_concatenation (max_q qc0 : Nat) (h0 : List Exchange)
    (oracle : Oracle) (concept : String) :
    (∀ chunks : List (Option String),
      stream_drain chunks = String.join (chunks.filterMap id)) ∧
    (∀ i, i < (play_game ⟨true, max_q, qc0, h0⟩ oracle concept).conversation_history.length →
      ∃ qraw araw, oracle (2 * i) = .ok qraw ∧ oracle (2 * i + 1) = .ok araw ∧
        (play_game ⟨true, max_q, qc0, h0⟩ oracle concept).conversation_history[i]? =
          some ⟨String.join (qraw.chunks.filterMap id),
            String.join (araw.chunks.filterMap id)⟩) ∧
    (∀ o, (play_game ⟨true, max_q, qc0, h0⟩ oracle concept).result = .ok o →
      (o.success = true ↔
        ∃ e, o.conversation.getLast? = some e ∧ e.answer = "DONE")) := by
  refine ⟨stream_drain_eq_join, ?_, (play_game_done ⟨true, max_q, qc0, h0⟩ oracle concept).1⟩
  intro i hi
  obtain ⟨-, -, hcorr⟩ := play_game_calls ⟨true, max_q, qc0, h0⟩ oracle concept
  obtain ⟨qraw, araw, hq, ha, hget⟩ := hcorr i hi
  refine ⟨qraw, araw, hq, ha, ?_⟩
  rw [hget]
  simp [_make_api_call, stream_drain_eq_join]

/-- C7: when an inference call fails, the failure is propagated at once as
the result of the run (never converted into a fabricated outcome): the
failing call is the last call made, every earlier call was made exactly once
and succeeded (no retry), the counter is one past the completed exchanges,
and the partial conversation history — exactly the exchanges completed before
the failure, none of them a win — remains available to the caller. -/
theorem c7_error_propagation (a : AIAkinator) (oracle : Oracle) (concept : String)
    (e : InfError) (h : (play_game a oracle concept).result = .error e) :
    oracle ((play_game a oracle concept).call_log.length - 1) = .error e ∧
    (∀ m < (play_game a oracle concept).call_log.length - 1, ∃ x, oracle m = .ok x) ∧
    ((play_game a oracle concept).call_log.length =
        2 * (play_game a oracle concept).conversation_history.length + 1 ∨
      (play_game a oracle concept).call_log.length =
        2 * (play_game a oracle concept).conversation_history.length + 2) ∧
    (play_game a oracle concept).question_count =
      (play_game a oracle concept).conversation_history.length + 1 ∧
    (∀ i, i < (play_game a oracle concept).conversation_history.length →
      ∃ qraw araw, oracle (2 * i) = .ok qraw ∧ oracle (2 * i + 1) = .ok araw ∧
        (play_game a oracle concept).conversation_history[i]? =
          some ⟨_make_api_call a.stream qraw, _make_api_call a.stream araw⟩) ∧
    (∀ ex ∈ (play_game a oracle concept).conversation_history, ex.answer ≠ "DONE") := by
  obtain ⟨-, herr, -, -, -, -⟩ := play_game_basic a oracle concept
  obtain ⟨-, hcerr, hcorr⟩ := play_game_calls a oracle concept
  obtain ⟨-, -, hnd⟩ := play_game_done a oracle concept
  obtain ⟨hlor, hfailcall, hprev⟩ := hcerr e h
  exact ⟨hfailcall, hprev, hlor, herr e h, hcorr, hnd e h⟩

/-- C8: for every history, the guesser prompt is exactly a system message
carrying the strategy instructions plus one user message that renders the
full history as `Q{i}: …\nA{i}: …` pairs in turn order (1-based, as the spec
renders them), with the sentinel first-question marker substituted exactly
when the history is empty. -/
theorem c8_guesser_prompt_rendering (h : List Exchange) :
    get_guesser_messages h =
      [⟨"system", guesser_system_content⟩,
       ⟨"user", "Based on this conversation history, what is your next question?\n\n" ++
        (if h = [] then "This is the first question." else spec_history_render 1 h) ++
        "\n\nAsk your next question:"⟩] := by
  obtain ⟨h1, h2⟩ := history_text_eq_spec h
  by_cases hh : h = []
  · subst hh
    rfl
  · have hht : history_text h ≠ "" := fun hc => hh (h2.1 hc)
    simp only [get_guesser_messages, guesser_user_content]
    rw [if_neg hht, h1, if_neg hh, if_neg hh]

/-- C9: the answerer prompt for a turn is exactly a system message fixing the
concept plus one user message carrying the current question, and contains no
part of the conversation history: the prompt logged for the `i`-th answerer
call is determined by the concept and that turn's question text alone, so two
runs (over different objects, different oracles, hence different histories)
whose `i`-th questions coincide send identical answerer prompts on turn `i`. -/
theorem c9_answerer_prompt_stateless (concept : String) (a₁ a₂ : AIAkinator)
    (oracle₁ oracle₂ : Oracle) (i : Nat) (e₁ e₂ : Exchange)
    (h₁ : (play_game a₁ oracle₁ concept).conversation_history[i]? = some e₁)
    (h₂ : (play_game a₂ oracle₂ concept).conversation_history[i]? = some e₂)
    (hq : e₁.question = e₂.question) :
    (play_game a₁ oracle₁ concept).call_log[2 * i + 1]? =
      some (get_answerer_messages concept e₁.question) ∧
    (play_game a₁ oracle₁ concept).call_log[2 * i + 1]? =
      (play_game a₂ oracle₂ concept).call_log[2 * i + 1]? ∧
    (∀ c q, get_answerer_messages c q =
      [⟨"system", answerer_system_content c⟩, ⟨"user", "Question: " ++ q⟩]) := by
  have hm₁ := play_game_log a₁ oracle₁ concept i e₁ h₁
  have hm₂ := play_game_log a₂ oracle₂ concept i e₂ h₂
  exact ⟨hm₁.2, by rw [hm₁.2, hm₂.2, hq], fun c q => rfl⟩

/-- C10: `play_game` resets the conversation history to `[]` and the counter
to `0` before the loop, so its entire observable behavior is independent of
the `question_count` and `conversation_history` left on the object by earlier
runs: with the same streaming flag, bound, oracle and concept, two runs from
arbitrarily different prior states are equal in every component. -/
theorem c10_reset_state_independence (stream : Bool) (max_q qc₁ qc₂ : Nat)
    (h₁ h₂ : List Exchange) (oracle : Oracle) (concept : String) :
    play_game ⟨stream, max_q, qc₁, h₁⟩ oracle concept =
      play_game ⟨stream, max_q, qc₂, h₂⟩ oracle concept := rfl

/-!  ## Concrete witnesses  -/

/-- Witness for C1: a session winning on turn 2 (the answer of the second
exchange is "DONE"). -/
theorem c1_witness : ∃ o,
    (play_game ⟨false, 3, 0, []⟩ (doneAtCall 3) "Einstein").result = .ok o ∧
    (o.success = true ↔ ∃ e ∈ o.conversation, e.answer = "DONE") ∧
    (∀ i, ∀ hi : i < o.conversation.length,
      (o.conversation.get ⟨i, hi⟩).answer = "DONE" →
        i + 1 = o.questions_asked ∧ i + 1 = o.conversation.length) :=
  ⟨⟨true, "Einstein", 2, [⟨"Is it a cat?", "Is it a cat?"⟩, ⟨"Is it a cat?", "DONE"⟩]⟩,
    rfl, (c1_done_sentinel_win ⟨false, 3, 0, []⟩ (doneAtCall 3) "Einstein" _ rfl).1,
    (c1_done_sentinel_win ⟨false, 3, 0, []⟩ (doneAtCall 3) "Einstein" _ rfl).2⟩

/-- Witness for C2: an exhausted two-turn session started from a dirty object
state. -/
theorem c2_witness : ∃ o,
    (play_game ⟨false, 2, 5, [⟨"x", "y"⟩]⟩ (constOracle "No") "cat").result = .ok o ∧
    o.questions_asked = o.conversation.length :=
  ⟨⟨false, "cat", 2, [⟨"No", "No"⟩, ⟨"No", "No"⟩]⟩, rfl,
    ((c2_count_equals_history ⟨false, 2, 5, [⟨"x", "y"⟩]⟩
      (constOracle "No") "cat").2 _ rfl).1⟩

/-- Witness for the amended C3: a one-turn session with the empty concept
makes inference calls and records the same history as the same session with
concept "cat". -/
theorem c3_witness :
    0 < (run_game "" 1 false (constOracle "No")).call_log.length ∧
    (run_game "" 1 false (constOracle "No")).conversation_history =
      (run_game "cat" 1 false (constOracle "No")).conversation_history := by
  have hc := c3_empty_concept_not_validated 1 false (constOracle "No") "cat" (by decide)
  exact ⟨hc.1, hc.2.1⟩

/-- Witness for C4: the exhausted two-turn session reports at most two
questions. -/
theorem c4_witness : ∃ o,
    (play_game ⟨false, 2, 0, []⟩ (constOracle "Sometimes") "dog").result = .ok o ∧
    o.questions_asked ≤ 2 :=
  ⟨⟨false, "dog", 2, [⟨"Sometimes", "Sometimes"⟩, ⟨"Sometimes", "Sometimes"⟩]⟩, rfl,
    (c4_bounded_turns ⟨false, 2, 0, []⟩ (constOracle "Sometimes") "dog").2.2.2.2 _ rfl⟩

/-- Witness for C5: the answerer never says "DONE" within the bound of 2, so
the outcome is the exhaustion case. -/
theorem c5_witness : ∃ o,
    (play_game ⟨false, 2, 0, []⟩ (constOracle "No") "cat").result = .ok o ∧
    o.success = false ∧ o.questions_asked = 2 :=
  ⟨⟨false, "cat", 2, [⟨"No", "No"⟩, ⟨"No", "No"⟩]⟩, rfl,
    c5_exhaustion_outcome ⟨false, 2, 0, []⟩ (constOracle "No") "cat" _ rfl (by decide)⟩

/-- Witness for C6: the mocked stream yields the fragments `["D", "ONE"]`;
the recorded answer is the full concatenation "DONE", not the partial
fragment "D", and the win fires on it. -/
theorem c6_witness :
    (∃ qraw araw, chunkedOracle 0 = .ok qraw ∧ chunkedOracle 1 = .ok araw ∧
      (play_game ⟨true, 5, 0, []⟩ chunkedOracle "cat").conversation_history[0]? =
        some ⟨String.join (qraw.chunks.filterMap id),
          String.join (araw.chunks.filterMap id)⟩) ∧
    (∃ o, (play_game ⟨true, 5, 0, []⟩ chunkedOracle "cat").result = .ok o ∧
      (o.success = true ↔ ∃ e, o.conversation.getLast? = some e ∧ e.answer = "DONE")) := by
  have hc := c6_streaming_full_concatenation 5 0 [] chunkedOracle "cat"
  exact ⟨hc.2.1 0 (by decide),
    ⟨⟨true, "cat", 1, [⟨"Is it a cat?", "DONE"⟩]⟩, rfl, hc.2.2 _ rfl⟩⟩

/-- Witness for C7: the third call (the guesser call of turn 2) fails; the
session aborts with the error, having made exactly 3 calls, with one completed
exchange and the counter one ahead of it. -/
theorem c7_witness :
    (play_game ⟨false, 3, 0, []⟩ (failAtCall 2) "cat").result = .error .inferenceError ∧
    failAtCall 2 ((play_game ⟨false, 3, 0, []⟩ (failAtCall 2) "cat").call_log.length - 1) =
      .error .inferenceError ∧
    (play_game ⟨false, 3, 0, []⟩ (failAtCall 2) "cat").question_count =
      (play_game ⟨false, 3, 0, []⟩ (failAtCall 2) "cat").conversation_history.length + 1 := by
  have hc := c7_error_propagation ⟨false, 3, 0, []⟩ (failAtCall 2) "cat"
    .inferenceError rfl
  exact ⟨rfl, hc.1, hc.2.2.2.1⟩

/-- Witness for C9: two runs with different answer streams (hence different
histories) but the same turn-2 question send the identical answerer prompt on
turn 2. -/
theorem c9_witness :
    (play_game ⟨false, 3, 0, []⟩ (constOracle "No") "cat").call_log[3]? =
      some (get_answerer_messages "cat" "No") ∧
    (play_game ⟨false, 3, 0, []⟩ (constOracle "No") "cat").call_log[3]? =
      (play_game ⟨false, 3, 0, []⟩ altOracle "cat").call_log[3]? := by
  have hc := c9_answerer_prompt_stateless "cat" ⟨false, 3, 0, []⟩ ⟨false, 3, 0, []⟩
    (constOracle "No") altOracle 1 ⟨"No", "No"⟩ ⟨"No", "Sometimes"⟩ rfl rfl rfl
  exact ⟨hc.1, hc.2.1⟩

end Akinator
